import Mathlib

/-!
Verification development for `copy_deck_images_general.py`
(Card-Game-Proxy-Utility).

The Python source is shallowly embedded below.  Strings are modelled as
Lean `String`s and all text manipulation is done on the underlying
character lists; the regular expressions of the source are translated
into explicit character scanners (each definition's doc comment names the
regex it implements).  The filesystem visible to the program (the output
root's folders and the files inside each deck folder) is modelled by the
`FS` structure, and every `log(...)` call of the source becomes an `Ev`
event.  While loops over variant counters (`choose_dest_dir`,
`rename_with_suffix`) are embedded with an explicit fuel parameter and an
`Option` result, faithful to the unbounded `while True` of the source.
-/

namespace CardCopy

/-- ASCII lowercasing of one character, as Python `str.lower()` acts on
the ASCII inputs used throughout. -/
def lowerChar (c : Char) : Char :=
  if 'A' ≤ c ∧ c ≤ 'Z' then Char.ofNat (c.toNat + 32) else c

/-- Lowercase a whole string. -/
def lowerStr (s : String) : String := String.mk (s.data.map lowerChar)

/-- Characters matched by Python's `\s` on ASCII text. -/
def isPySpace (c : Char) : Bool :=
  c = ' ' ∨ c = '\t' ∨ c = '\n' ∨ c = '\r' ∨ c = '\x0b' ∨ c = '\x0c'

/-- Characters kept by `normalize_key`: `[a-z0-9]` after lowercasing. -/
def keepAlnum (c : Char) : Bool :=
  ('a' ≤ c ∧ c ≤ 'z') ∨ ('0' ≤ c ∧ c ≤ '9')

/-- Source `normalize_key(s)`: `re.sub(r"[^a-z0-9]", "", s.lower())`. -/
def normalizeKey (s : String) : String :=
  String.mk ((s.data.map lowerChar).filter keepAlnum)

/-- Word characters for Python's `\b` boundaries: `[a-zA-Z0-9_]`. -/
def isWordChar (c : Char) : Bool :=
  ('a' ≤ c ∧ c ≤ 'z') ∨ ('A' ≤ c ∧ c ≤ 'Z') ∨ ('0' ≤ c ∧ c ≤ '9') ∨ c = '_'

/-- Helper for `tokenize`: split a character list into maximal
alphanumeric runs, `acc` holding the current run reversed. -/
def tokenizeAux : List Char → List Char → List (List Char)
  | [], acc => if acc.isEmpty then [] else [acc.reverse]
  | c :: cs, acc =>
    if keepAlnum c then tokenizeAux cs (c :: acc)
    else if acc.isEmpty then tokenizeAux cs []
    else acc.reverse :: tokenizeAux cs []

/-- Source `tokenize(s)`: `re.findall(r"[a-z0-9]+", s.lower())`. -/
def tokenize (s : String) : List String :=
  (tokenizeAux (s.data.map lowerChar) []).map String.mk

/-- Python `str.strip()` (both ends) restricted to `\s`. -/
def stripWs (l : List Char) : List Char :=
  ((l.dropWhile isPySpace).reverse.dropWhile isPySpace).reverse

/-- Python `str.rstrip()`. -/
def rstripWs (l : List Char) : List Char :=
  (l.reverse.dropWhile isPySpace).reverse

/-- The alternation `(red|yellow|blue|yel|blu)` of the pitch regexes, in
source order. -/
def pitchWords : List String := ["red", "yellow", "blue", "yel", "blu"]

/-- Canonicalization used by `extract_pitch`:
`{"yel": "yellow", "blu": "blue"}.get(w, w)`. -/
def canonPitch (w : String) : String :=
  if w = "yel" then "yellow" else if w = "blu" then "blue" else w

/-- Find the pitch word `w` such that the lowercased name matches
`\((w)\)\s*$`, i.e. (after discarding trailing whitespace) the name ends
in `(w)`.  Works on the reversed lowercased character list. -/
def findPitchWord (name : String) : Option String :=
  let r := ((name.data.map lowerChar).reverse).dropWhile isPySpace
  pitchWords.find? (fun w => r.take (w.length + 2) = ')' :: w.data.reverse ++ ['('])

/-- Source `extract_pitch(name)`: `re.search(r"\((red|yellow|blue|yel|blu)\)\s*$",
name, re.IGNORECASE)`, returning the canonical color. -/
def extractPitch (name : String) : Option String :=
  (findPitchWord name).map canonPitch

/-- Remove a trailing `\s*\((w)\)\s*` (case-insensitively, `w` drawn from
`words`) from the raw character list, then `strip()` the result; if no
such suffix exists, just `strip()`.  Shared body of `strip_pitch_suffix`
and `strip_back_suffix`. -/
def stripTaggedSuffix (words : List String) (name : String) : String :=
  let rev := name.data.reverse
  let r1 := rev.dropWhile isPySpace
  match words.find? (fun w =>
      (r1.take (w.length + 2)).map lowerChar = ')' :: w.data.reverse ++ ['(']) with
  | some w =>
      String.mk (stripWs (((r1.drop (w.length + 2)).dropWhile isPySpace).reverse))
  | none => String.mk (stripWs name.data)

/-- Source `strip_pitch_suffix(name)`:
`re.sub(r"\s*\((?:red|yellow|blue|yel|blu)\)\s*$", "", name, re.IGNORECASE).strip()`. -/
def stripPitchSuffix (name : String) : String :=
  stripTaggedSuffix pitchWords name

/-- Source `strip_back_suffix(name)`:
`re.sub(r"\s*\(back\)\s*$", "", name, re.IGNORECASE).strip()`. -/
def stripBackSuffix (name : String) : String :=
  stripTaggedSuffix ["back"] name

/-- Characters removed by `sanitize_filename` (after `:` has been
replaced by `_`): the set `<>:"/\|?*`. -/
def badFileChars : List Char := ['<', '>', ':', '"', '/', '\\', '|', '?', '*']

/-- Collapse every whitespace run to a single space
(`re.sub(r"\s+", " ", name)`); `prevSpace` records whether the previously
emitted character closed a run. -/
def collapseWsAux : Bool → List Char → List Char
  | _, [] => []
  | prevSpace, c :: cs =>
    if isPySpace c then
      if prevSpace then collapseWsAux true cs else ' ' :: collapseWsAux true cs
    else c :: collapseWsAux false cs

/-- Source `sanitize_filename(name)`: replace `:` by `_`, delete `<>:"/\|?*`,
collapse whitespace runs to single spaces, `strip()`, `rstrip(".")`. -/
def sanitizeFilename (name : String) : String :=
  let s1 := name.data.map (fun c => if c = ':' then '_' else c)
  let s2 := s1.filter (fun c => ¬ badFileChars.contains c)
  let s3 := collapseWsAux false s2
  let s4 := stripWs s3
  String.mk ((s4.reverse.dropWhile (· = '.')).reverse)

/-- Boolean list-prefix test (Python `str.startswith` on char lists). -/
def startsWithList : List Char → List Char → Bool
  | [], _ => true
  | _ :: _, [] => false
  | a :: as, b :: bs => a = b && startsWithList as bs

/-- Python `a.startswith(b)`. -/
def startsWithStr (a b : String) : Bool := startsWithList b.data a.data

/-- Python `a.endswith(b)`. -/
def endsWithStr (a b : String) : Bool :=
  startsWithList b.data.reverse a.data.reverse

/-- Python `needle in hay` on char lists (substring containment). -/
def containsSubstr (needle : List Char) : List Char → Bool
  | [] => startsWithList needle []
  | c :: cs => startsWithList needle (c :: cs) || containsSubstr needle cs

/-- Boundary check before/after a `\b`-delimited match: `none` stands for
the string edge. -/
def nonWordOpt : Option Char → Bool
  | none => true
  | some c => ¬ isWordChar c

/-- Boundary check at the head of the remaining text. -/
def nonWordHead : List Char → Bool
  | [] => true
  | c :: _ => ¬ isWordChar c

/-- Scanner for `re.search(rf"\b{w}\b", hay)`: scan `hay` for `w` bounded by
non-word characters, `prev` being the character preceding the current
position. -/
def containsWordAux (w : List Char) : Option Char → List Char → Bool
  | prev, l =>
    (nonWordOpt prev && startsWithList w l && nonWordHead (l.drop w.length)) ||
    match l with
    | [] => false
    | c :: cs => containsWordAux w (some c) cs

/-- Whole-word containment of `w` in `hay`. -/
def containsWord (hay w : String) : Bool :=
  containsWordAux w.data none hay.data

/-- Scanner for `re.findall(r"\(([^)]{2,})\)", s)`: all parenthesized groups of at
least two non-`)` characters, scanning left to right; `acc`, when open,
holds the reversed content accumulated since the last unmatched `(`. -/
def parenGroupsAux : List Char → Option (List Char) → List (List Char)
  | [], _ => []
  | c :: cs, none =>
    if c = '(' then parenGroupsAux cs (some []) else parenGroupsAux cs none
  | c :: cs, some acc =>
    if c = ')' then
      if acc.length ≥ 2 then acc.reverse :: parenGroupsAux cs none
      else parenGroupsAux cs none
    else parenGroupsAux cs (some (c :: acc))

/-- All `(...)` groups of a stem as in back-art strategy 3. -/
def parenGroups (s : String) : List (List Char) := parenGroupsAux s.data none

/-- Python `int` on a nonempty digit string. -/
def digitsToNat (l : List Char) : Nat :=
  l.foldl (fun n c => n * 10 + (c.toNat - '0'.toNat)) 0

/-! ### Catalog entries and the index (`index_library`) -/

/-- A `pathlib.Path` to an image file: parent directory (with trailing
separator), stem, and suffix. -/
structure Entry where
  dir : String
  stem : String
  ext : String
deriving DecidableEq, Repr

/-- Python `str(p)`. -/
def Entry.pathStr (e : Entry) : String := e.dir ++ e.stem ++ e.ext

/-- Python `p.name`. -/
def Entry.fname (e : Entry) : String := e.stem ++ e.ext

/-- The index `Dict[str, List[Path]]`, as an association list in dict
insertion order. -/
abbrev Index := List (String × List Entry)

/-- Source `key in index` and `index[key]` as one partial lookup. -/
def lookupIdx (idx : Index) (k : String) : Option (List Entry) :=
  ((idx : List (String × List Entry)).find? (fun p => p.1 = k)).map (fun p => p.2)

/-- Source `index.setdefault(key, []).append(p)`. -/
def idxInsert (idx : Index) (k : String) (e : Entry) : Index :=
  if (lookupIdx idx k).isSome then
    (idx : List (String × List Entry)).map
      (fun p => if p.1 = k then (p.1, p.2 ++ [e]) else p)
  else (idx : List (String × List Entry)) ++ [(k, [e])]

/-- Source `ext_order = {e.lower(): i for i, e in enumerate(exts)}` with
`ext_order.get(s.lower(), 999)`; a later duplicate key overwrites an
earlier one, hence the reversed search. -/
def extOrder (exts : List String) (s : String) : Nat :=
  ((((exts.map lowerStr).enum).reverse.find?
      (fun p => p.2 = lowerStr s)).map (fun p => p.1)).getD 999

/-- Python string `<=`: lexicographic comparison by code point. -/
def listCharLe : List Char → List Char → Bool
  | [], _ => true
  | _ :: _, [] => false
  | a :: as, b :: bs =>
    if a.toNat < b.toNat then true
    else if b.toNat < a.toNat then false
    else listCharLe as bs

/-- Python `a <= b` on strings. -/
def strLe (a b : String) : Bool := listCharLe a.data b.data

/-- The sort key comparison of `index_library`:
`(ext_order.get(x.suffix.lower(), 999), str(x).lower())`, compared as a
Python tuple. -/
def entryLe (exts : List String) (a b : Entry) : Prop :=
  extOrder exts a.ext < extOrder exts b.ext ∨
    (extOrder exts a.ext = extOrder exts b.ext ∧
      strLe (lowerStr a.pathStr) (lowerStr b.pathStr) = true)

instance (exts : List String) : DecidableRel (entryLe exts) := by
  intro a b
  unfold entryLe
  infer_instance


/-- The scan loop `for ext in exts: for p in images_root.rglob(f"*{ext}")`:
the filesystem listing is the input `files` (in filesystem order) and
`rglob(f"*{ext}")` keeps the files whose name ends with `ext`.  This is
also the flat catalog, since every match is appended to it. -/
def scanFiles (files : List Entry) (exts : List String) : List Entry :=
  exts.flatMap (fun ext => files.filter (fun f => endsWithStr f.fname ext))

/-- The per-file body of the scan loop: compute the normalized key of the
stem and append the entry to that key's bucket when the key is
nonempty. -/
def scanStep (idx : Index) (p : Entry) : Index :=
  if normalizeKey p.stem ≠ "" then idxInsert idx (normalizeKey p.stem) p
  else idx

/-- The unsorted index accumulated by the scan loop. -/
def rawIndex (files : List Entry) (exts : List String) : Index :=
  (scanFiles files exts).foldl scanStep ([] : Index)

/-- Source `index_library(images_root, exts, ...)`: build the raw index, then
sort each bucket by `entryLe` (Python's stable `list.sort`), and return
it with the flat catalog. -/
def indexLibrary (files : List Entry) (exts : List String) :
    Index × List Entry :=
  ((rawIndex files exts).map
      (fun p => (p.1, List.insertionSort (entryLe exts) p.2)),
   scanFiles files exts)

/-! ### The matcher (`best_match`) -/

/-- The `(pick, candidates, exact)` triple returned by `best_match`. -/
structure MatchResult where
  pick : Option Entry
  candidates : List Entry
  exact : Bool
deriving DecidableEq, Repr

/-- Source `best_match(card_name, index)`.  The `index[key][0]` of the source is
embedded as `bucket.head?` (on the buckets actually produced by
`index_library` the bucket is never empty). -/
def bestMatch (cardName : String) (idx : Index) : MatchResult :=
  let pitch := extractPitch cardName
  let key := normalizeKey cardName
  match lookupIdx idx key with
  | some bucket => ⟨bucket.head?, bucket, true⟩
  | none =>
    let base := if pitch.isSome then stripPitchSuffix cardName else cardName
    let baseKey := normalizeKey base
    let candKeys := (idx : List (String × List Entry)).filter
      (fun p => startsWithStr p.1 baseKey || startsWithStr baseKey p.1)
    let cands0 := candKeys.flatMap (fun p => p.2)
    let cands := match pitch with
      | some pw => cands0.filter (fun p => containsWord (lowerStr p.stem) pw)
      | none => cands0
    if cands ≠ [] then ⟨cands.head?, cands, false⟩
    else
      let rbKey := normalizeKey (stripBackSuffix (stripPitchSuffix cardName))
      let loose := ((idx : List (String × List Entry)).filter
        (fun p => rbKey ≠ "" ∧
          (startsWithStr p.1 rbKey || startsWithStr rbKey p.1))).flatMap
        (fun p => p.2)
      if loose ≠ [] then ⟨loose.head?, loose, false⟩
      else ⟨none, [], false⟩

/-! ### Back-art resolution (`find_back_images`) -/

/-- The backs-map `Dict[str, str]` in file order; a duplicate front key
overwrites, hence the reversed lookup. -/
abbrev BackMap := List (String × String)

/-- Source `key in backs_map` and `backs_map[key]`. -/
def lookupMap (bm : BackMap) (k : String) : Option String :=
  (((bm : List (String × String)).reverse).find? (fun p => p.1 = k)).map
    (fun p => p.2)

/-- Strategy 1 name list:
`filter(None, [f"{base} (Back)", f"{base} ({pitch}) (Back)" if pitch else
None, f"{strip_back_suffix(strip_pitch_suffix(src.stem))} (Back)"])`. -/
def backNamesS1 (front : String) (srcStem : String) : List String :=
  let pitch := extractPitch front
  let base := stripBackSuffix (stripPitchSuffix front)
  [some (base ++ " (Back)"),
   pitch.map (fun p => base ++ " (" ++ p ++ ") (Back)"),
   some (stripBackSuffix (stripPitchSuffix srcStem) ++ " (Back)")].filterMap id

/-- Strategy 1 (explicit `(Back)` lookups): concatenate the index buckets
of every strategy-1 name that has one. -/
def backsS1 (front : String) (srcStem : String) (idx : Index) : List Entry :=
  (backNamesS1 front srcStem).flatMap
    (fun n => (lookupIdx idx (normalizeKey n)).getD [])

/-- One step of strategy 2: `key in backs_map` and the mapped name's
bucket in the index (the `break` fires only when both succeed). -/
def backsS2Try (idx : Index) (bm : BackMap) (key : String) :
    Option (List Entry) :=
  (lookupMap bm key).bind (fun tgt => lookupIdx idx (normalizeKey tgt))

/-- Strategy 2 (override map), tried for `front_card` then `base`. -/
def backsS2 (front base : String) (idx : Index) (bm : BackMap) : List Entry :=
  ((backsS2Try idx bm front).or (backsS2Try idx bm base)).getD []

/-- Strategy 3 (parenthetical token containment over the flat catalog):
guarded by `if base_tokens:`; a file matches when some `(...)`
group of its stem has a token set containing every base token. -/
def backsS3 (base : String) (catalog : List Entry) : List Entry :=
  let baseTokens := tokenize base
  if baseTokens.isEmpty then []
  else catalog.filter (fun p =>
    (parenGroups p.stem).any (fun grp =>
      baseTokens.all (fun t => (tokenize (String.mk grp)).contains t)))

/-- Strategy 4 (`"back" in sl` plus token containment, no nonempty
guard). -/
def backsS4 (base : String) (catalog : List Entry) : List Entry :=
  let baseTokens := tokenize base
  catalog.filter (fun p =>
    containsSubstr "back".data (lowerStr p.stem).data &&
      baseTokens.all (fun t => (tokenize (lowerStr p.stem)).contains t))

/-- The final dedup by `(p.stem, p.suffix.lower())`. -/
def dedupBacks (seen : List (String × String)) : List Entry → List Entry
  | [] => []
  | p :: ps =>
    if seen.contains (p.stem, lowerStr p.ext) then dedupBacks seen ps
    else p :: dedupBacks ((p.stem, lowerStr p.ext) :: seen) ps

/-- Source `find_back_images(front_card, src, index, catalog, backs_map)` with
the module-global `BACK_CACHE` factored out (see `findBacksCached`):
the four strategies in cascade, a later one only when all earlier ones
returned nothing, then dedup. -/
def findBackImages (front : String) (src : Entry) (idx : Index)
    (catalog : List Entry) (bm : BackMap) : List Entry :=
  let base := stripBackSuffix (stripPitchSuffix front)
  let r1 := backsS1 front src.stem idx
  let results :=
    if r1 ≠ [] then r1
    else
      let r2 := backsS2 front base idx bm
      if r2 ≠ [] then r2
      else
        let r3 := backsS3 base catalog
        if r3 ≠ [] then r3
        else backsS4 base catalog
  dedupBacks [] results

/-- The `BACK_CACHE` memoization keyed by `normalize_key(front_card)`. -/
def findBacksCached (front : String) (src : Entry) (idx : Index)
    (catalog : List Entry) (bm : BackMap)
    (cache : List (String × List Entry)) :
    List Entry × List (String × List Entry) :=
  let k := normalizeKey front
  match (cache.find? (fun p => p.1 = k)).map (fun p => p.2) with
  | some r => (r, cache)
  | none =>
    let r := findBackImages front src idx catalog bm
    (r, cache ++ [(k, r)])

/-! ### Deck parsing (`parse_deck_file`) -/

/-- Match `^\s*{key}\s*:\s*(.+)$` (IGNORECASE) against one line and
return `group(1)`; when everything after the colon is whitespace the
regex still matches with a single-space group (greedy `\s*` backtracking
one character), which the caller's `strip()` turns into the empty
string. -/
def matchHeader (key : String) (ln : String) : Option String :=
  let cs := ln.data.dropWhile isPySpace
  if (cs.take key.length).map lowerChar = key.data then
    let r := (cs.drop key.length).dropWhile isPySpace
    match r with
    | ':' :: r2 =>
      if r2.isEmpty then none
      else
        let v := r2.dropWhile isPySpace
        some (String.mk (if v.isEmpty then [' '] else v))
    | _ => none
  else none

/-- The header fields accumulated over the first 100 lines. -/
structure Headers where
  title : String := ""
  identity : String := ""
  deckName : String := ""
  hero : String := ""
  commander : String := ""
  side : String := ""
  game : String := ""
deriving DecidableEq, Repr

/-- Python `str.strip()` on a whole string. -/
def stripStr (s : String) : String := String.mk (stripWs s.data)

/-- Apply every `HEADER_KEYS` pattern to one line, assigning the stripped
group on a match (`side` also accepts the `faction` spelling). -/
def updateHeaders (h : Headers) (ln : String) : Headers :=
  let upd := fun (old : String) (o : Option String) =>
    match o with
    | some v => stripStr v
    | none => old
  { title := upd h.title (matchHeader "title" ln)
    identity := upd h.identity (matchHeader "identity" ln)
    deckName := upd h.deckName (matchHeader "deck" ln)
    hero := upd h.hero (matchHeader "hero" ln)
    commander := upd h.commander (matchHeader "commander" ln)
    side := upd h.side ((matchHeader "side" ln).or (matchHeader "faction" ln))
    game := upd h.game (matchHeader "game" ln) }

/-- Match `PAT_COUNT_X_NAME = ^\s*(\d+)\s*[xX]\s+(.+?)\s*$` against
`ln.strip()` and return `(int(group(1)), group(2).strip())`. -/
def parseCardLine (ln : String) : Option (Nat × String) :=
  let cs := stripWs ln.data
  let digits := cs.takeWhile Char.isDigit
  let rest := cs.dropWhile Char.isDigit
  if digits.isEmpty then none
  else
    match rest.dropWhile isPySpace with
    | c :: rest3 =>
      if c = 'x' ∨ c = 'X' then
        match rest3 with
        | d :: _ =>
          if isPySpace d then
            let nm := stripWs rest3
            if nm.isEmpty then none
            else some (digitsToNat digits, String.mk nm)
          else none
        | [] => none
      else none
    | [] => none

/-- A decklist file: its filename stem and its text lines
(`splitlines()` already applied). -/
structure DeckFile where
  stem : String
  lines : List String
deriving DecidableEq, Repr

/-- Source `parse_deck_file(path, prefer_identity)`: header scan over the first
100 (rstripped) lines, display-name candidate chain, and the card
entries with the pitch annotation re-canonicalized to
`f"{strip_pitch_suffix(nm)} ({pitch})"`. -/
def parseDeckFile (stem : String) (lines0 : List String)
    (preferIdentity : Bool) :
    String × String × String × List (Nat × String) :=
  let lines := lines0.map (fun ln => String.mk (rstripWs ln.data))
  let hdr := (lines.take 100).foldl updateHeaders {}
  let candidates := [if preferIdentity then hdr.identity else "",
                     if preferIdentity then hdr.hero else "",
                     if preferIdentity then hdr.commander else "",
                     hdr.deckName, hdr.title, stem]
  let deckDisplay := ((candidates.find? (fun c => c ≠ "")).getD stem)
  let entries := lines.filterMap (fun ln =>
    (parseCardLine ln).map (fun e =>
      match extractPitch e.2 with
      | some p => (e.1, stripPitchSuffix e.2 ++ " (" ++ p ++ ")")
      | none => (e.1, e.2)))
  (deckDisplay, hdr.side, hdr.game, entries)

/-- Source `compose_folder_base` in the configuration exercised by the claims
(no `--name-template`): join the nonempty components of
game/side/deck with `" - "`. -/
def composeFolderBase (deckDisplay side gameCli gameHeader : String) :
    String :=
  let game := stripStr (if gameHeader ≠ "" then gameHeader else gameCli)
  let deck := stripStr deckDisplay
  let side := stripStr side
  if game ≠ "" ∧ side ≠ "" then game ++ " - " ++ side ++ " - " ++ deck
  else if game ≠ "" then game ++ " - " ++ deck
  else if side ≠ "" then side ++ " - " ++ deck
  else deck

/-! ### The filesystem model, events, and the folder-claim ledger -/

/-- The output root visible to the program: the folder names under it and
the `(folder, filename)` pairs of the copied images. -/
structure FS where
  dirs : List String
  files : List (String × String)
deriving DecidableEq, Repr

/-- One `log(...)` call, by bracketed category. -/
inductive Ev where
  | copy (folder file : String)
  | skipExists (folder file : String)
  | missing (card : String)
  | ambiguous (card : String)
  | variantCreated (base variant deckKey : String)
  | warnNoCards (deck : String)
deriving DecidableEq, Repr

/-- Source `target.mkdir(parents=True, exist_ok=True)`. -/
def mkdirP (fs : FS) (d : String) : FS :=
  if fs.dirs.contains d then fs else { fs with dirs := fs.dirs ++ [d] }

/-- Source `folder_claims` lookup (`name in folder_claims` and
`folder_claims[name]`). -/
def claimsLookup (cl : List (String × String)) (k : String) :
    Option String :=
  (cl.find? (fun p => p.1 = k)).map (fun p => p.2)

/-- Source `folder_claims.setdefault(name, deck_key)`. -/
def claimsSetdefault (cl : List (String × String)) (k v : String) :
    List (String × String) :=
  if (claimsLookup cl k).isSome then cl else cl ++ [(k, v)]

/-- Source `folder_claims[name] = deck_key` (assignment). -/
def claimsAssign (cl : List (String × String)) (k v : String) :
    List (String × String) :=
  if (claimsLookup cl k).isSome then
    cl.map (fun p => if p.1 = k then (k, v) else p)
  else cl ++ [(k, v)]

/-- What `choose_dest_dir` returns and mutates. -/
structure DestResult where
  dir : String
  fs : FS
  claims : List (String × String)
  evs : List Ev
deriving DecidableEq, Repr

/-- The sanitized name of the `n`-th variant candidate. -/
def variantName (base : String) (n : Nat) : String :=
  sanitizeFilename (base ++ " (variant " ++ toString n ++ ")")

/-- The loop guard of `choose_dest_dir`'s variant search:
`not vpath.exists() and variant not in folder_claims`. -/
def dirFree (fs : FS) (claims : List (String × String))
    (name : String) : Prop :=
  fs.dirs.contains name = false ∧ claimsLookup claims name = none

instance (fs : FS) (claims : List (String × String)) (name : String) :
    Decidable (dirFree fs claims name) := by
  unfold dirFree
  infer_instance

/-- The `while True` variant loop of `choose_dest_dir`, with fuel. -/
def chooseVariant (fs : FS) (claims : List (String × String))
    (baseName deckKey : String) : Nat → Nat → Option DestResult
  | 0, _ => none
  | fuel + 1, n =>
    if dirFree fs claims (variantName baseName n) then
      some ⟨variantName baseName n, mkdirP fs (variantName baseName n),
            claimsAssign claims (variantName baseName n) deckKey,
            [Ev.variantCreated baseName (variantName baseName n) deckKey]⟩
    else chooseVariant fs claims baseName deckKey fuel (n + 1)

/-- Source `choose_dest_dir(base_dir, base_name, deck_key, existing_dirs_start,
folder_claims, error_log)`. -/
def chooseDestDir (fuel : Nat) (fs : FS) (snapshot : List String)
    (claims : List (String × String)) (baseName0 deckKey : String) :
    Option DestResult :=
  let baseName := sanitizeFilename baseName0
  if snapshot.contains baseName || fs.dirs.contains baseName then
    some ⟨baseName, mkdirP fs baseName,
          claimsSetdefault claims baseName deckKey, []⟩
  else
    match claimsLookup claims baseName with
    | some owner =>
      if owner ≠ deckKey then chooseVariant fs claims baseName deckKey fuel 2
      else some ⟨baseName, mkdirP fs baseName,
                 claimsAssign claims baseName deckKey, []⟩
    | none =>
      some ⟨baseName, mkdirP fs baseName,
            claimsAssign claims baseName deckKey, []⟩

/-- Source `p.rename(q)` on the folder model: the folder is renamed and its
files move with it. -/
def fsRename (fs : FS) (old new : String) : FS :=
  { dirs := fs.dirs.map (fun d => if d = old then new else d)
    files := fs.files.map (fun p =>
      (if p.1 = old then new else p.1, p.2)) }

/-- The variant loop of `rename_with_suffix`, with fuel. -/
def renameVariantLoop (fs : FS) (dirName newName : String) :
    Nat → Nat → Option (String × FS)
  | 0, _ => none
  | fuel + 1, n =>
    let cand := variantName newName n
    if fs.dirs.contains cand then
      renameVariantLoop fs dirName newName fuel (n + 1)
    else some (cand, fsRename fs dirName cand)

/-- Source `rename_with_suffix(dest_dir, suffix, error_log)`; the `rename`
itself is modelled as always succeeding. -/
def renameWithSuffix (fuel : Nat) (fs : FS) (dirName suffix : String) :
    Option (String × FS) :=
  if endsWithStr dirName suffix then some (dirName, fs)
  else
    let newName := sanitizeFilename (dirName ++ " " ++ suffix)
    if fs.dirs.contains newName then
      renameVariantLoop fs dirName newName fuel 2
    else some (newName, fsRename fs dirName newName)

/-! ### The copy orchestrator (`handle_deck` and `main`'s deck loop) -/

/-- The run-scoped mutable state threaded through deck handling. -/
structure RunSt where
  fs : FS
  claims : List (String × String)
  cache : List (String × List Entry)
  evs : List Ev
deriving DecidableEq, Repr

/-- The resume-safe copy loop: for each output name in order, skip it
when the target already exists, otherwise copy (`shutil.copy2` is
modelled as always succeeding). -/
def doCopies (dest : String) (names : List String) (fs : FS) :
    FS × List Ev :=
  names.foldl (fun acc nm =>
    if acc.1.files.contains (dest, nm) then
      (acc.1, acc.2 ++ [Ev.skipExists dest nm])
    else ({ acc.1 with files := acc.1.files ++ [(dest, nm)] },
          acc.2 ++ [Ev.copy dest nm])) (fs, [])

/-- The output names
`f"{sanitize_filename(card)} - {i} of {qty}{src.suffix.lower()}"` for
`i` in `1..qty`. -/
def frontNames (card : String) (qty : Nat) (ext : String) : List String :=
  (List.range' 1 qty).map (fun i =>
    sanitizeFilename card ++ " - " ++ toString i ++ " of " ++
      toString qty ++ lowerStr ext)

/-- The back output names
`f"{sanitize_filename(base_req)} (Back) - {i} of {qty}{back.suffix.lower()}"`. -/
def backNames (baseReq : String) (qty : Nat) (ext : String) :
    List String :=
  (List.range' 1 qty).map (fun i =>
    sanitizeFilename baseReq ++ " (Back) - " ++ toString i ++ " of " ++
      toString qty ++ lowerStr ext)

/-- The per-card body of `handle_deck`'s entry loop; the `Bool` tracks
`unique_back_used`. -/
def handleCard (idx : Index) (catalog : List Entry) (bm : BackMap)
    (destDir : String) (acc : RunSt × Bool) (e : Nat × String) :
    RunSt × Bool :=
  let st := acc.1
  let card := e.2
  let qty := e.1
  let res := bestMatch card idx
  match res.pick with
  | none => ({ st with evs := st.evs ++ [Ev.missing card] }, acc.2)
  | some src =>
    let fe := doCopies destDir (frontNames card qty src.ext) st.fs
    let ambEvs := if res.exact = false ∧ res.candidates.length > 1 then
        [Ev.ambiguous card]
      else []
    let bc := findBacksCached card src idx catalog bm st.cache
    match bc.1 with
    | [] =>
      (⟨fe.1, st.claims, bc.2, st.evs ++ fe.2 ++ ambEvs⟩, acc.2)
    | back :: _ =>
      let baseReq := stripBackSuffix (stripPitchSuffix card)
      let be := doCopies destDir (backNames baseReq qty back.ext) fe.1
      (⟨be.1, st.claims, bc.2, st.evs ++ fe.2 ++ ambEvs ++ be.2⟩, true)

/-- Source `handle_deck(deck_path)` (progress reporting omitted: it is a passive
observer). -/
def handleDeck (fuel : Nat) (idx : Index) (catalog : List Entry)
    (bm : BackMap) (snapshot : List String) (preferIdentity : Bool)
    (gameCli : String) (st : RunSt) (deck : DeckFile) : Option RunSt :=
  let parsed := parseDeckFile deck.stem deck.lines preferIdentity
  let deckDisplay := parsed.1
  let side := parsed.2.1
  let gameHeader := parsed.2.2.1
  let entries := parsed.2.2.2
  if entries.isEmpty then
    some { st with evs := st.evs ++ [Ev.warnNoCards deck.stem] }
  else
    let folderBase := composeFolderBase deckDisplay side gameCli gameHeader
    match chooseDestDir fuel st.fs snapshot st.claims folderBase
        deckDisplay with
    | none => none
    | some dr =>
      let st1 : RunSt := ⟨dr.fs, dr.claims, st.cache, st.evs ++ dr.evs⟩
      let folded := entries.foldl (handleCard idx catalog bm dr.dir)
        (st1, false)
      if folded.2 then
        match renameWithSuffix fuel folded.1.fs dr.dir
            " - Unique front and backs" with
        | none => none
        | some r => some { folded.1 with fs := r.2 }
      else some folded.1

/-- One full run of `main`'s deck loop: snapshot the output root's
folders, start with an empty ledger and back cache, and handle each deck
in order. -/
def runPipeline (fuel : Nat) (idx : Index) (catalog : List Entry)
    (bm : BackMap) (preferIdentity : Bool) (gameCli : String)
    (decks : List DeckFile) (fs0 : FS) : Option RunSt :=
  let snapshot := fs0.dirs
  decks.foldlM (fun st d =>
    handleDeck fuel idx catalog bm snapshot preferIdentity gameCli st d)
    (⟨fs0, [], [], []⟩ : RunSt)

/-- The number of file copies actually performed in a run. -/
def countCopies (evs : List Ev) : Nat :=
  (evs.filter (fun e => match e with | .copy _ _ => true | _ => false)).length

/-! ### Concrete scenarios -/

/-- Image library for the re-run scenario: one card with an explicit
back. -/
def c1Files : List Entry :=
  [⟨"lib/", "Card", ".png"⟩, ⟨"lib/", "Card (Back)", ".png"⟩]

/-- Index and flat catalog built from `c1Files`. -/
def c1Catalog : Index × List Entry := indexLibrary c1Files [".png"]

/-- A single decklist `D.txt` containing `1x Card`. -/
def c1Decks : List DeckFile := [⟨"D", ["1x Card"]⟩]

/-- First pipeline run against an empty output root. -/
def c1FirstRun : Option RunSt :=
  runPipeline 9 c1Catalog.1 c1Catalog.2 [] false "" c1Decks ⟨[], []⟩

/-- Second pipeline run against the unchanged inputs and the output root
left by the first run. -/
def c1SecondRun : Option RunSt :=
  (c1FirstRun.map RunSt.fs).bind
    (fun fs => runPipeline 9 c1Catalog.1 c1Catalog.2 [] false "" c1Decks fs)

/-- Image library for the end-to-end pitch scenario. -/
def c4Files : List Entry :=
  [⟨"lib/", "Ember's Call (Red)", ".png"⟩,
   ⟨"lib/", "Ember's Call (Red) (Back)", ".png"⟩]

/-- Index and flat catalog built from `c4Files`. -/
def c4Catalog : Index × List Entry := indexLibrary c4Files [".png"]

/-- Pipeline run for a decklist containing `2x Ember's Call (Red)`. -/
def c4Run : Option RunSt :=
  runPipeline 9 c4Catalog.1 c4Catalog.2 [] false ""
    [⟨"EmberDeck", ["2x Ember's Call (Red)"]⟩] ⟨[], []⟩

/-- Catalog for the explicit-beats-override scenario. -/
def c5Files : List Entry :=
  [⟨"lib/", "X", ".png"⟩, ⟨"lib/", "X (Back)", ".png"⟩,
   ⟨"lib/", "Y", ".png"⟩]

/-- Index and flat catalog built from `c5Files`. -/
def c5Catalog : Index × List Entry := indexLibrary c5Files [".png"]

/-- Catalog for the referential-transparency counterexample. -/
def c7Files : List Entry :=
  [⟨"lib/", "Storm", ".png"⟩, ⟨"lib/", "Other", ".png"⟩]

/-- Index and flat catalog built from `c7Files`. -/
def c7Catalog : Index × List Entry := indexLibrary c7Files [".png"]

/-- The override map of the counterexample, keyed by the raw spelling
`"Storm"`. -/
def c7Map : BackMap := [("Storm", "Other")]

/-- Modelled from the claim's words (C6): buckets sorted by "(1) position
of the entry's extension in the caller-supplied extension-preference
list (unknown extensions sorting last), (2) lexical path string,
ascending" — i.e. the raw path string, where the source compares
`str(x).lower()`. -/
def entryLeSpec (exts : List String) (a b : Entry) : Prop :=
  extOrder exts a.ext < extOrder exts b.ext ∨
    (extOrder exts a.ext = extOrder exts b.ext ∧
      strLe a.pathStr b.pathStr = true)

instance (exts : List String) : DecidableRel (entryLeSpec exts) := by
  intro a b
  unfold entryLeSpec
  infer_instance

/-- Catalog for the spec's exact-match precedence example. -/
def c6Files : List Entry :=
  [⟨"lib/", "Card", ".png"⟩, ⟨"lib/", "Card", ".jpg"⟩]

/-- Index and flat catalog built from `c6Files` with extension
preference `[.png, .jpg]`. -/
def c6Catalog : Index × List Entry := indexLibrary c6Files [".png", ".jpg"]

/-- Two files whose stems share the normalized key `"ab"` but whose
lowercased path order differs from their raw path order. -/
def c6CaseFiles : List Entry :=
  [⟨"", "aB", ".png"⟩, ⟨"", "a_b", ".png"⟩]

/-- Index built from `c6CaseFiles`. -/
def c6CaseCatalog : Index × List Entry := indexLibrary c6CaseFiles [".png"]

/-- The invariant maintained by the scan loop over the raw index: every
pair has a nonempty key, a nonempty bucket, and bucket entries whose
stems normalize to exactly that key. -/
def goodIdx (idx : Index) : Prop :=
  ∀ p ∈ idx, p.1 ≠ "" ∧ p.2 ≠ ([] : List Entry) ∧
    ∀ e ∈ p.2, normalizeKey e.stem = p.1

/-! ### Order-theoretic facts about the bucket sort -/

/-- Totality of `listCharLe`. -/
theorem listCharLe_total : ∀ a b : List Char,
    listCharLe a b = true ∨ listCharLe b a = true := by
  intro a
  induction a with
  | nil => intro b; left; rfl
  | cons x xs ih =>
    intro b
    cases b with
    | nil => right; rfl
    | cons y ys =>
      by_cases hxy : x.toNat < y.toNat
      · left
        simp only [listCharLe, if_pos hxy]
      · by_cases hyx : y.toNat < x.toNat
        · right
          simp only [listCharLe, if_pos hyx]
        · rcases ih ys with h | h
          · left
            simp only [listCharLe, if_neg hxy, if_neg hyx, h]
          · right
            simp only [listCharLe, if_neg hyx, if_neg hxy, h]

/-- Transitivity of `listCharLe`. -/
theorem listCharLe_trans : ∀ a b c : List Char,
    listCharLe a b = true → listCharLe b c = true →
    listCharLe a c = true := by
  intro a
  induction a with
  | nil => intro b c _ _; rfl
  | cons x xs ih =>
    intro b c hab hbc
    cases b with
    | nil => exact absurd hab (by simp [listCharLe])
    | cons y ys =>
      cases c with
      | nil => exact absurd hbc (by simp [listCharLe])
      | cons z zs =>
        simp only [listCharLe] at hab hbc ⊢
        by_cases h1 : x.toNat < y.toNat
        · by_cases h3 : y.toNat < z.toNat
          · rw [if_pos (by omega : x.toNat < z.toNat)]
          · by_cases h4 : z.toNat < y.toNat
            · rw [if_neg h3, if_pos h4] at hbc
              exact absurd hbc (by simp)
            · rw [if_pos (by omega : x.toNat < z.toNat)]
        · by_cases h2 : y.toNat < x.toNat
          · rw [if_neg h1, if_pos h2] at hab
            exact absurd hab (by simp)
          · by_cases h3 : y.toNat < z.toNat
            · rw [if_pos (by omega : x.toNat < z.toNat)]
            · by_cases h4 : z.toNat < y.toNat
              · rw [if_neg h3, if_pos h4] at hbc
                exact absurd hbc (by simp)
              · rw [if_neg h1, if_neg h2] at hab
                rw [if_neg h3, if_neg h4] at hbc
                rw [if_neg (by omega : ¬ x.toNat < z.toNat),
                  if_neg (by omega : ¬ z.toNat < x.toNat)]
                exact ih ys zs hab hbc

instance (exts : List String) : IsTotal Entry (entryLe exts) := by
  constructor
  intro a b
  unfold entryLe
  rcases Nat.lt_trichotomy (extOrder exts a.ext) (extOrder exts b.ext)
    with h | h | h
  · exact Or.inl (Or.inl h)
  · rcases listCharLe_total (lowerStr a.pathStr).data
      (lowerStr b.pathStr).data with hl | hl
    · exact Or.inl (Or.inr ⟨h, hl⟩)
    · exact Or.inr (Or.inr ⟨h.symm, hl⟩)
  · exact Or.inr (Or.inl h)

instance (exts : List String) : IsTrans Entry (entryLe exts) := by
  constructor
  intro a b c hab hbc
  unfold entryLe at hab hbc ⊢
  rcases hab with hab | ⟨hab, hab2⟩
  · rcases hbc with hbc | ⟨hbc, _⟩
    · exact Or.inl (hab.trans hbc)
    · exact Or.inl (hbc ▸ hab)
  · rcases hbc with hbc | ⟨hbc, hbc2⟩
    · exact Or.inl (hab ▸ hbc)
    · exact Or.inr ⟨hab.trans hbc,
        listCharLe_trans _ _ _ hab2 hbc2⟩

/-! ### Facts about `index_library` -/

/-- A successful index lookup comes from a pair of the association
list whose key matches. -/
theorem lookupIdx_eq_some (idx : Index) (k : String) (b : List Entry)
    (h : lookupIdx idx k = some b) :
    ∃ p, p ∈ idx ∧ p.1 = k ∧ p.2 = b := by
  unfold lookupIdx at h
  rcases hf : idx.find? (fun p => p.1 = k) with _ | p
  · rw [hf] at h
    simp at h
  · rw [hf] at h
    simp at h
    refine ⟨p, List.mem_of_find?_eq_some hf, ?_, h⟩
    have hd := List.find?_some hf
    exact of_decide_eq_true hd

/-- Insertion preserves the scan invariant when the inserted entry's
stem normalizes to the (nonempty) insertion key. -/
theorem idxInsert_good (idx : Index) (k : String) (e : Entry)
    (hk : normalizeKey e.stem = k) (hk0 : k ≠ "")
    (h : goodIdx idx) : goodIdx (idxInsert idx k e) := by
  intro p hp
  unfold idxInsert at hp
  split_ifs at hp with hl
  · rw [List.mem_map] at hp
    obtain ⟨q, hq, hfq⟩ := hp
    by_cases hqk : q.1 = k
    · rw [if_pos hqk] at hfq
      subst hfq
      refine ⟨by simpa [hqk] using (h q hq).1, by simp, ?_⟩
      intro x hx
      dsimp only at hx ⊢
      rcases List.mem_append.mp hx with hx | hx
      · exact (h q hq).2.2 x hx
      · simp at hx
        subst hx
        exact hk.trans hqk.symm
    · rw [if_neg hqk] at hfq
      subst hfq
      exact h q hq
  · rcases List.mem_append.mp hp with hp | hp
    · exact h p hp
    · simp at hp
      subst hp
      refine ⟨hk0, by simp, ?_⟩
      intro x hx
      simp at hx
      subst hx
      exact hk

/-- The scan loop maintains the invariant. -/
theorem foldl_scanStep_good (files : List Entry) :
    ∀ idx, goodIdx idx → goodIdx (files.foldl scanStep idx) := by
  induction files with
  | nil => intro idx h; exact h
  | cons f fs ih =>
    intro idx h
    rw [List.foldl_cons]
    refine ih _ ?_
    unfold scanStep
    split_ifs with hk
    · exact idxInsert_good idx _ f rfl hk h
    · exact h

/-- The raw index of `index_library` satisfies the scan invariant. -/
theorem rawIndex_good (files : List Entry) (exts : List String) :
    goodIdx (rawIndex files exts) :=
  foldl_scanStep_good (scanFiles files exts) []
    (by intro p hp; simp at hp)

/-- Looking up in a key-preserving per-bucket map is the mapped
lookup. -/
theorem lookupIdx_map (g : List Entry → List Entry) (idx : Index)
    (k : String) :
    lookupIdx (idx.map (fun p => (p.1, g p.2))) k =
      (lookupIdx idx k).map g := by
  induction idx with
  | nil => rfl
  | cons p t ih =>
    by_cases h : p.1 = k
    · unfold lookupIdx
      rw [List.map_cons, List.find?_cons_of_pos _ (by simpa using h),
        List.find?_cons_of_pos _ (by simpa using h)]
      rfl
    · unfold lookupIdx
      rw [List.map_cons, List.find?_cons_of_neg _ (by simpa using h),
        List.find?_cons_of_neg _ (by simpa using h)]
      exact ih

/-- Master description of `index_library` lookups: every bucket returned
is nonempty, sorted by the source's comparison key, and consists of
entries whose stems normalize to the (nonempty) lookup key. -/
theorem indexLibrary_lookup (files : List Entry) (exts : List String)
    (k : String) (b : List Entry)
    (h : lookupIdx (indexLibrary files exts).1 k = some b) :
    k ≠ "" ∧ b ≠ [] ∧ List.Sorted (entryLe exts) b ∧
      ∀ e ∈ b, normalizeKey e.stem = k := by
  unfold indexLibrary at h
  rw [lookupIdx_map] at h
  rcases hr : lookupIdx (rawIndex files exts) k with _ | b0
  · rw [hr] at h
    simp at h
  · rw [hr] at h
    simp at h
    obtain ⟨p, hp, hpk, hpb⟩ := lookupIdx_eq_some _ _ _ hr
    have hg := rawIndex_good files exts p hp
    have hperm := List.perm_insertionSort (entryLe exts) b0
    have hsorted := List.sorted_insertionSort (entryLe exts) b0
    refine ⟨hpk ▸ hg.1, ?_, h ▸ hsorted, ?_⟩
    · intro hnil
      rw [h, hnil] at hperm
      exact (hpb ▸ hg.2.1) hperm.symm.eq_nil
    · intro e he
      rw [← h] at he
      have hmem : e ∈ b0 := hperm.mem_iff.mp he
      exact hpk ▸ hg.2.2 e (hpb.symm ▸ hmem)

/-! ### C1 -/

/-- C1 (exhibit of the code bug): with a single deck `D` whose card has
back art, the first run leaves the folder renamed to
`"D - Unique front and backs"`; the second run against unchanged inputs
then fails to find the folder `"D"`, re-creates it, performs two
additional file copies, and `rename_with_suffix` forks the marked name
into `"D - Unique front and backs (variant 2)"` — contradicting the
claimed zero additional copies and zero additional variant folders. -/
theorem c1_second_run_recopies_and_creates_variant :
    c1FirstRun.map (fun st => (countCopies st.evs, st.fs.dirs)) =
      some (2, ["D - Unique front and backs"]) ∧
    c1SecondRun.map (fun st => (countCopies st.evs, st.fs.dirs)) =
      some (2, ["D - Unique front and backs",
                "D - Unique front and backs (variant 2)"]) := by
  exact ⟨rfl, rfl⟩

/-! ### C4 -/

/-- C4 (counterexample): for the decklist line `2x Ember's Call (Red)`
the pitch annotation is canonicalized to lowercase `(red)` by
`parse_deck_file`, so the produced front copies are named
`"Ember's Call (red) - i of 2.png"` and the claimed file name
`"Ember's Call (Red) - 1 of 2.png"` is never produced. -/
theorem c4_front_names_use_lowercase_pitch :
    c4Run.map (fun st => st.fs.files.map (fun p => p.2)) =
      some ["Ember's Call (red) - 1 of 2.png",
            "Ember's Call (red) - 2 of 2.png",
            "Ember's Call (Back) - 1 of 2.png",
            "Ember's Call (Back) - 2 of 2.png"] ∧
    c4Run.map (fun st =>
        st.fs.files.contains
          ("EmberDeck - Unique front and backs",
           "Ember's Call (Red) - 1 of 2.png")) = some false := by
  exact ⟨rfl, rfl⟩

/-- C4 (amended): the pipeline produces exactly two front copies named
`"Ember's Call (red) - 1 of 2.png"` / `"... - 2 of 2.png"` (the pitch
carried forward in its canonical lowercase `(red)` form), two back
copies named `"Ember's Call (Back) - 1 of 2.png"` / `"... - 2 of 2.png"`,
and renames the deck folder with the unique-backs marker. -/
theorem c4_end_to_end_scenario :
    c4Run.map (fun st => (st.fs.dirs, st.fs.files)) =
      some (["EmberDeck - Unique front and backs"],
        [("EmberDeck - Unique front and backs",
          "Ember's Call (red) - 1 of 2.png"),
         ("EmberDeck - Unique front and backs",
          "Ember's Call (red) - 2 of 2.png"),
         ("EmberDeck - Unique front and backs",
          "Ember's Call (Back) - 1 of 2.png"),
         ("EmberDeck - Unique front and backs",
          "Ember's Call (Back) - 2 of 2.png")]) := by
  rfl

/-! ### C2 -/

/-- C2: when the sanitized base name is in the pre-run snapshot or its
target folder already exists on disk, `choose_dest_dir` returns that
folder unconditionally — for every requesting deck identity — records
the claim only if the name is unclaimed, and emits no variant event. -/
theorem c2_preexisting_folder_reused (fuel : Nat) (fs : FS)
    (snapshot : List String) (claims : List (String × String))
    (baseName0 deckKey : String)
    (h : snapshot.contains (sanitizeFilename baseName0) = true ∨
         fs.dirs.contains (sanitizeFilename baseName0) = true) :
    chooseDestDir fuel fs snapshot claims baseName0 deckKey =
      some ⟨sanitizeFilename baseName0,
            mkdirP fs (sanitizeFilename baseName0),
            claimsSetdefault claims (sanitizeFilename baseName0) deckKey,
            []⟩ ∧
    (claimsLookup claims (sanitizeFilename baseName0) = none →
      claimsSetdefault claims (sanitizeFilename baseName0) deckKey =
        claims ++ [(sanitizeFilename baseName0, deckKey)]) ∧
    (∀ v, claimsLookup claims (sanitizeFilename baseName0) = some v →
      claimsSetdefault claims (sanitizeFilename baseName0) deckKey =
        claims) := by
  refine ⟨?_, ?_, ?_⟩
  · have hb : (snapshot.contains (sanitizeFilename baseName0) ||
        fs.dirs.contains (sanitizeFilename baseName0)) = true := by
      rcases h with h | h
      · rw [h, Bool.true_or]
      · rw [h, Bool.or_true]
    simp only [chooseDestDir, hb, if_true]
  · intro hn
    simp [claimsSetdefault, hn]
  · intro v hv
    simp [claimsSetdefault, hv]

/-- C2 witness: `"Deck A"` exists in the output root before the run; a
deck with identity `"Other Deck"` requesting base name `"Deck A"` is
placed directly into the existing folder, the claim is recorded, and no
variant is allocated. -/
theorem c2_preexisting_folder_reused_witness :
    chooseDestDir 5 ⟨["Deck A"], []⟩ ["Deck A"] [] "Deck A" "Other Deck" =
      some ⟨"Deck A", ⟨["Deck A"], []⟩, [("Deck A", "Other Deck")], []⟩ := by
  have h := c2_preexisting_folder_reused 5 ⟨["Deck A"], []⟩ ["Deck A"] []
    "Deck A" "Other Deck" (Or.inl (by rfl))
  exact h.1.trans (by rfl)

/-! ### C3 -/

/-- The variant loop returns the first available candidate at or after
its starting counter. -/
theorem chooseVariant_eq (fs : FS) (claims : List (String × String))
    (base deckKey : String) (N : Nat) :
    ∀ (fuel n : Nat), n ≤ N → N < n + fuel →
      dirFree fs claims (variantName base N) →
      (∀ m, n ≤ m → m < N → ¬ dirFree fs claims (variantName base m)) →
      chooseVariant fs claims base deckKey fuel n =
        some ⟨variantName base N, mkdirP fs (variantName base N),
              claimsAssign claims (variantName base N) deckKey,
              [Ev.variantCreated base (variantName base N) deckKey]⟩ := by
  intro fuel
  induction fuel with
  | zero => intro n hn hlt _ _; omega
  | succ fuel ih =>
    intro n hn hlt hfree hblock
    by_cases hEq : n = N
    · subst hEq
      unfold chooseVariant
      rw [if_pos hfree]
    · have hnN : n < N := lt_of_le_of_ne hn hEq
      unfold chooseVariant
      rw [if_neg (hblock n le_rfl hnN)]
      exact ih (n + 1) hnN (by omega) hfree
        (fun m hm hmN => hblock m (by omega) hmN)

/-- C3 (counterexample to the concrete instance): two decks with
different identities colliding on the fresh name `"Storm"` do NOT end up
in `"Storm"` and `"Storm (variant 2)"`: the first call creates the
folder `"Storm"` on disk, so the second call takes the disk-reuse branch
(`target.exists()`) and places deck `"Deck B"` into `"Storm"` as well,
with no variant event. -/
theorem c3_sequential_collision_reuses_folder :
    chooseDestDir 5 ⟨[], []⟩ [] [] "Storm" "Deck A" =
      some ⟨"Storm", ⟨["Storm"], []⟩, [("Storm", "Deck A")], []⟩ ∧
    chooseDestDir 5 ⟨["Storm"], []⟩ [] [("Storm", "Deck A")] "Storm"
        "Deck B" =
      some ⟨"Storm", ⟨["Storm"], []⟩, [("Storm", "Deck A")], []⟩ := by
  exact ⟨rfl, rfl⟩

/-- C3 (amended): when the sanitized base name is not in the snapshot,
does not exist on disk, and is claimed in the ledger by a different deck
identity, `choose_dest_dir` allocates `"{base} (variant N)"` for the
least `N ≥ 2` that is both unclaimed and non-existing, creates it,
claims it for the requesting identity, and logs a variant event.  (The
different-identity collision can only reach this branch when the
first deck's folder has since disappeared from disk, e.g. renamed by
`rename_with_suffix`; otherwise the disk-reuse branch fires first.) -/
theorem c3_variant_allocation (fuel N : Nat) (fs : FS)
    (snapshot : List String) (claims : List (String × String))
    (baseName0 deckKey owner : String)
    (hsnap : snapshot.contains (sanitizeFilename baseName0) = false)
    (hdisk : fs.dirs.contains (sanitizeFilename baseName0) = false)
    (hclaim : claimsLookup claims (sanitizeFilename baseName0) =
      some owner)
    (howner : owner ≠ deckKey)
    (h2 : 2 ≤ N) (hfuel : N < 2 + fuel)
    (hfree : dirFree fs claims (variantName (sanitizeFilename baseName0) N))
    (hblock : ∀ m, 2 ≤ m → m < N →
      ¬ dirFree fs claims (variantName (sanitizeFilename baseName0) m)) :
    chooseDestDir fuel fs snapshot claims baseName0 deckKey =
      some ⟨variantName (sanitizeFilename baseName0) N,
            mkdirP fs (variantName (sanitizeFilename baseName0) N),
            claims ++ [(variantName (sanitizeFilename baseName0) N,
                        deckKey)],
            [Ev.variantCreated (sanitizeFilename baseName0)
              (variantName (sanitizeFilename baseName0) N) deckKey]⟩ := by
  have hstep : chooseDestDir fuel fs snapshot claims baseName0 deckKey =
      chooseVariant fs claims (sanitizeFilename baseName0) deckKey
        fuel 2 := by
    simp only [chooseDestDir, hsnap, hdisk, Bool.or_false, hclaim]
    rw [if_neg (by simp), if_pos howner]
  have hassign : claimsAssign claims
      (variantName (sanitizeFilename baseName0) N) deckKey =
      claims ++ [(variantName (sanitizeFilename baseName0) N, deckKey)] := by
    unfold claimsAssign
    rw [hfree.2]
    simp
  rw [hstep, chooseVariant_eq fs claims (sanitizeFilename baseName0)
    deckKey N fuel 2 h2 hfuel hfree hblock, hassign]

/-- C3 witness: deck `"Deck A"` claimed `"Storm"` earlier in the run but
its folder was renamed away, so `"Storm"` is absent from disk; deck
`"Deck B"` requesting `"Storm"` then receives `"Storm (variant 2)"`,
which is created, claimed, and logged. -/
theorem c3_variant_allocation_witness :
    chooseDestDir 3 ⟨["Storm - Unique front and backs"], []⟩ []
        [("Storm", "Deck A")] "Storm" "Deck B" =
      some ⟨"Storm (variant 2)",
            ⟨["Storm - Unique front and backs", "Storm (variant 2)"], []⟩,
            [("Storm", "Deck A"), ("Storm (variant 2)", "Deck B")],
            [Ev.variantCreated "Storm" "Storm (variant 2)" "Deck B"]⟩ := by
  have h := c3_variant_allocation 3 2 ⟨["Storm - Unique front and backs"], []⟩
    [] [("Storm", "Deck A")] "Storm" "Deck B" "Deck A"
    (by rfl) (by rfl) (by rfl) (by decide) (by omega) (by omega)
    (by constructor <;> rfl)
    (fun m hm hmN => absurd hmN (Nat.not_lt.mpr hm))
  exact h.trans (by rfl)

/-! ### C5 -/

/-- C5: the back-art cascade evaluates its four strategies in the fixed
order explicit-suffix, override-map, parenthetical containment,
"back"-keyword containment; a later strategy runs only when all earlier
ones produced no results, and in particular when the explicit strategy
has a hit the result is its (deduplicated) hit list and the override map
is irrelevant to the outcome. -/
theorem c5_cascade_first_nonempty_wins (front : String) (src : Entry)
    (idx : Index) (cat : List Entry) (bm bm2 : BackMap) :
    (backsS1 front src.stem idx ≠ [] →
      findBackImages front src idx cat bm =
        dedupBacks [] (backsS1 front src.stem idx) ∧
      findBackImages front src idx cat bm =
        findBackImages front src idx cat bm2) ∧
    (backsS1 front src.stem idx = [] →
      backsS2 front (stripBackSuffix (stripPitchSuffix front)) idx bm ≠
        [] →
      findBackImages front src idx cat bm =
        dedupBacks []
          (backsS2 front (stripBackSuffix (stripPitchSuffix front)) idx
            bm)) ∧
    (backsS1 front src.stem idx = [] →
      backsS2 front (stripBackSuffix (stripPitchSuffix front)) idx bm =
        [] →
      backsS3 (stripBackSuffix (stripPitchSuffix front)) cat ≠ [] →
      findBackImages front src idx cat bm =
        dedupBacks []
          (backsS3 (stripBackSuffix (stripPitchSuffix front)) cat)) ∧
    (backsS1 front src.stem idx = [] →
      backsS2 front (stripBackSuffix (stripPitchSuffix front)) idx bm =
        [] →
      backsS3 (stripBackSuffix (stripPitchSuffix front)) cat = [] →
      findBackImages front src idx cat bm =
        dedupBacks []
          (backsS4 (stripBackSuffix (stripPitchSuffix front)) cat)) := by
  refine ⟨?_, ?_, ?_, ?_⟩
  · intro h1
    constructor
    · simp only [findBackImages, if_pos h1]
    · simp only [findBackImages, if_pos h1]
  · intro h1 h2
    simp only [findBackImages, h1]
    rw [if_neg (fun h => h rfl), if_pos h2]
  · intro h1 h2 h3
    simp only [findBackImages, h1, h2]
    rw [if_neg (fun h => h rfl), if_neg (fun h => h rfl), if_pos h3]
  · intro h1 h2 h3
    simp only [findBackImages, h1, h2, h3]
    rw [if_neg (fun h => h rfl), if_neg (fun h => h rfl),
      if_neg (fun h => h rfl)]

/-- C5 witness: with both an explicit `"X (Back)"` index entry and an
override-map entry `X -> Y` present, the resolved back is the explicit
`X (Back)` file and the override map does not influence the result. -/
theorem c5_cascade_first_nonempty_wins_witness :
    findBackImages "X" ⟨"lib/", "X", ".png"⟩ c5Catalog.1 c5Catalog.2
        [("X", "Y")] = [⟨"lib/", "X (Back)", ".png"⟩] ∧
    findBackImages "X" ⟨"lib/", "X", ".png"⟩ c5Catalog.1 c5Catalog.2
        [("X", "Y")] =
      findBackImages "X" ⟨"lib/", "X", ".png"⟩ c5Catalog.1 c5Catalog.2
        [] := by
  have h := (c5_cascade_first_nonempty_wins "X" ⟨"lib/", "X", ".png"⟩
    c5Catalog.1 c5Catalog.2 [("X", "Y")] []).1 (by decide)
  exact ⟨h.1.trans (by rfl), h.2⟩

/-! ### C6 -/

/-- C6 (counterexample): the bucket of the key `"ab"` built from the
files `aB.png` and `a_b.png` is ordered `[a_b.png, aB.png]` because the
source sorts by the LOWERCASED path string, under which
`"a_b.png" < "ab.png"`; under the claimed raw lexical path order
`"aB.png" < "a_b.png"`, so the bucket is not sorted as the claim
describes. -/
theorem c6_bucket_not_sorted_by_raw_path :
    lookupIdx c6CaseCatalog.1 "ab" =
      some [⟨"", "a_b", ".png"⟩, ⟨"", "aB", ".png"⟩] ∧
    ¬ entryLeSpec [".png"] ⟨"", "a_b", ".png"⟩ ⟨"", "aB", ".png"⟩ ∧
    ¬ List.Sorted (entryLeSpec [".png"])
      [⟨"", "a_b", ".png"⟩, ⟨"", "aB", ".png"⟩] := by
  refine ⟨rfl, by decide, ?_⟩
  intro hs
  exact (by decide :
      ¬ entryLeSpec [".png"] ⟨"", "a_b", ".png"⟩ ⟨"", "aB", ".png"⟩)
    (List.rel_of_sorted_cons hs _ (by simp))

/-- C6 (amended): for every requested name whose normalized form is a
key of the index, `best_match` returns the first entry of that key's
bucket as the pick, the whole bucket as candidates, and `exact = true`,
where the bucket is nonempty and sorted by extension-preference position
(unknown extensions last, via the `999` default) and then by the
LOWERCASED path string ascending. -/
theorem c6_exact_match_sorted_bucket (files : List Entry)
    (exts : List String) (name : String) (b : List Entry)
    (h : lookupIdx (indexLibrary files exts).1 (normalizeKey name) =
      some b) :
    bestMatch name (indexLibrary files exts).1 = ⟨b.head?, b, true⟩ ∧
    b ≠ [] ∧ List.Sorted (entryLe exts) b := by
  have hm := indexLibrary_lookup files exts (normalizeKey name) b h
  refine ⟨?_, hm.2.1, hm.2.2.1⟩
  unfold bestMatch
  simp only [h]

/-- C6 witness: with catalog files `Card.png` and `Card.jpg` and
extension preference `[.png, .jpg]`, `best_match("Card")` is an exact
match picking `Card.png`, the bucket being sorted with `.png` first. -/
theorem c6_exact_match_sorted_bucket_witness :
    bestMatch "Card" c6Catalog.1 =
      ⟨some ⟨"lib/", "Card", ".png"⟩,
       [⟨"lib/", "Card", ".png"⟩, ⟨"lib/", "Card", ".jpg"⟩], true⟩ ∧
    List.Sorted (entryLe [".png", ".jpg"])
      [⟨"lib/", "Card", ".png"⟩, ⟨"lib/", "Card", ".jpg"⟩] := by
  have h := c6_exact_match_sorted_bucket c6Files [".png", ".jpg"] "Card"
    [⟨"lib/", "Card", ".png"⟩, ⟨"lib/", "Card", ".jpg"⟩] (by rfl)
  exact ⟨h.1.trans (by rfl), h.2.2⟩

/-! ### C7 -/

/-- C7 (counterexample): `"Storm"` and `"storm"` have the same
normalized key, yet resolve to different back lists, because the
override map is consulted with the raw spelling; memoizing by the
normalized front name alone therefore can change results. -/
theorem c7_normalized_key_not_referentially_transparent :
    normalizeKey "Storm" = normalizeKey "storm" ∧
    findBackImages "Storm" ⟨"lib/", "Storm", ".png"⟩ c7Catalog.1
        c7Catalog.2 c7Map =
      [⟨"lib/", "Other", ".png"⟩] ∧
    findBackImages "storm" ⟨"lib/", "Storm", ".png"⟩ c7Catalog.1
        c7Catalog.2 c7Map = [] := by
  exact ⟨rfl, rfl, rfl⟩

/-- C7 (amended): within one run, back-art resolution is a pure function
of the raw front-card name and the matched source file's stem: the rest
of the source path (directory, extension) is irrelevant.  Agreement of
the normalized key alone does not suffice. -/
theorem c7_backs_determined_by_name_and_src_stem (front : String)
    (src1 src2 : Entry) (idx : Index) (cat : List Entry) (bm : BackMap)
    (h : src1.stem = src2.stem) :
    findBackImages front src1 idx cat bm =
      findBackImages front src2 idx cat bm := by
  unfold findBackImages
  rw [h]

/-- C7 witness: two source entries sharing the stem `"Storm"` but
differing in directory and extension resolve to the same backs. -/
theorem c7_backs_determined_by_name_and_src_stem_witness :
    findBackImages "Storm" ⟨"a/", "Storm", ".png"⟩ c7Catalog.1
        c7Catalog.2 c7Map =
      findBackImages "Storm" ⟨"b/", "Storm", ".jpg"⟩ c7Catalog.1
        c7Catalog.2 c7Map :=
  c7_backs_determined_by_name_and_src_stem "Storm" ⟨"a/", "Storm", ".png"⟩
    ⟨"b/", "Storm", ".jpg"⟩ c7Catalog.1 c7Catalog.2 c7Map rfl

/-! ### C8 -/

/-- Head description of a `⟨l.head?, l, b⟩` triple. -/
theorem head_triple_spec (l : List Entry) :
    (l.head? = none ↔ l = []) ∧
    (∀ e t, l = e :: t → l.head? = some e) := by
  cases l <;> simp

/-- Nonemptiness of every bucket of an association-list index transfers
to every successful lookup. -/
theorem lookupIdx_ne_nil (idx : Index)
    (hidx : ∀ p ∈ idx, p.2 ≠ ([] : List Entry)) :
    ∀ k b, lookupIdx idx k = some b → b ≠ [] := by
  intro k b h
  unfold lookupIdx at h
  rcases hf : idx.find? (fun p => p.1 = k) with _ | p
  · rw [hf] at h
    simp at h
  · rw [hf] at h
    simp at h
    subst h
    exact hidx p (List.mem_of_find?_eq_some hf)

/-- C8: on every index whose buckets are nonempty (as `index_library`
produces them; on an empty bucket the source line `index[key][0]` would
raise instead), `best_match` returns a pick that is exactly the head of
its candidate list when that list is nonempty, and no pick together with
an empty candidate list otherwise; moreover an exact match always has a
nonempty candidate list. -/
theorem c8_pick_iff_candidates (name : String) (idx : Index)
    (hbuckets : ∀ k b, lookupIdx idx k = some b → b ≠ []) :
    ((bestMatch name idx).pick = none ↔
      (bestMatch name idx).candidates = []) ∧
    (∀ e t, (bestMatch name idx).candidates = e :: t →
      (bestMatch name idx).pick = some e) ∧
    ((bestMatch name idx).exact = true →
      (bestMatch name idx).candidates ≠ []) := by
  have hmain : ∃ (l : List Entry) (b : Bool),
      bestMatch name idx = ⟨l.head?, l, b⟩ ∧ (b = true → l ≠ []) := by
    unfold bestMatch
    cases hidx : lookupIdx idx (normalizeKey name) with
    | none =>
      simp only [hidx]
      split_ifs <;> first
        | exact ⟨_, false, rfl, fun h => nomatch h⟩
        | exact ⟨[], false, rfl, fun h => nomatch h⟩
    | some bucket =>
      simp only [hidx]
      exact ⟨bucket, true, rfl, fun _ => hbuckets _ _ hidx⟩
  obtain ⟨l, b, hl, hb⟩ := hmain
  rw [hl]
  rcases l with _ | ⟨a, t⟩
  · refine ⟨by simp, by intro e t h; simp at h, ?_⟩
    intro hex
    exact absurd rfl (hb hex)
  · refine ⟨by simp, ?_, by intro _ h; simp at h⟩
    intro e t' h
    simp only [MatchResult.pick, List.head?]
    simp only [MatchResult.candidates] at h
    rw [List.cons.injEq] at h
    rw [h.1]

/-- C8 witness: instantiated on the index of `c1Files` at the requested
name `"Card"`. -/
theorem c8_pick_iff_candidates_witness :
    ((bestMatch "Card" c1Catalog.1).pick = none ↔
      (bestMatch "Card" c1Catalog.1).candidates = []) ∧
    (∀ e t, (bestMatch "Card" c1Catalog.1).candidates = e :: t →
      (bestMatch "Card" c1Catalog.1).pick = some e) ∧
    ((bestMatch "Card" c1Catalog.1).exact = true →
      (bestMatch "Card" c1Catalog.1).candidates ≠ []) :=
  c8_pick_iff_candidates "Card" c1Catalog.1
    (lookupIdx_ne_nil c1Catalog.1 (by decide))

end CardCopy

namespace CardCopy

/-! ### C9 -/

/-- C9: `rename_with_suffix` is idempotent on already-marked folders:
when the folder name already ends with the suffix it is returned
unchanged, no rename is performed, and no variant is allocated. -/
theorem c9_rename_idempotent_on_marked (fuel : Nat) (fs : FS)
    (dirName suffix : String)
    (h : endsWithStr dirName suffix = true) :
    renameWithSuffix fuel fs dirName suffix = some (dirName, fs) := by
  simp [renameWithSuffix, h]

/-- C9 witness: a folder already carrying the unique-backs marker is left
untouched. -/
theorem c9_rename_idempotent_on_marked_witness :
    renameWithSuffix 3
      ⟨["D - Unique front and backs"], []⟩
      "D - Unique front and backs" " - Unique front and backs" =
      some ("D - Unique front and backs",
            ⟨["D - Unique front and backs"], []⟩) :=
  c9_rename_idempotent_on_marked 3 ⟨["D - Unique front and backs"], []⟩
    "D - Unique front and backs" " - Unique front and backs" (by rfl)

/-! ### C10: character-level lemmas -/

/-- A stem normalizes to the empty key exactly when none of its
characters survives lowercasing plus the `[a-z0-9]` filter. -/
theorem normalizeKey_empty_iff (s : String) :
    normalizeKey s = "" ↔
      ∀ c ∈ s.data, keepAlnum (lowerChar c) = false := by
  unfold normalizeKey
  constructor
  · intro h c hc
    have hdata : (s.data.map lowerChar).filter keepAlnum = [] := by
      have := congrArg String.data h
      simpa using this
    rw [List.filter_eq_nil_iff] at hdata
    have := hdata (lowerChar c) (List.mem_map_of_mem _ hc)
    simpa using this
  · intro h
    have hdata : (s.data.map lowerChar).filter keepAlnum = [] := by
      rw [List.filter_eq_nil_iff]
      intro a ha
      rw [List.mem_map] at ha
      obtain ⟨c, hc, rfl⟩ := ha
      simpa using h c hc
    rw [hdata]

/-- A character list with no alphanumeric character tokenizes to
nothing. -/
theorem tokenizeAux_nil (l : List Char)
    (h : ∀ c ∈ l, keepAlnum c = false) : tokenizeAux l [] = [] := by
  induction l with
  | nil => rfl
  | cons c cs ih =>
    have hc := h c (by simp)
    unfold tokenizeAux
    simp only [hc]
    exact ih (fun x hx => h x (by simp [hx]))

/-- A string all of whose lowered characters fail the alphanumeric
filter has no tokens. -/
theorem tokenize_nil (s : String)
    (h : ∀ c ∈ s.data, keepAlnum (lowerChar c) = false) :
    tokenize s = [] := by
  unfold tokenize
  rw [tokenizeAux_nil]
  · rfl
  · intro c hc
    rw [List.mem_map] at hc
    obtain ⟨c0, hc0, rfl⟩ := hc
    exact h c0 hc0

/-- Every character of every parenthesized group found by the scanner
comes from the scanned text or from the accumulator. -/
theorem parenGroupsAux_mem :
    ∀ (l : List Char) (st : Option (List Char)) (grp : List Char)
      (c : Char),
      grp ∈ parenGroupsAux l st → c ∈ grp →
      c ∈ l ∨ ∃ acc, st = some acc ∧ c ∈ acc := by
  intro l
  induction l with
  | nil =>
    intro st grp c hg _
    simp [parenGroupsAux] at hg
  | cons x xs ih =>
    intro st grp c hg hc
    cases st with
    | none =>
      unfold parenGroupsAux at hg
      split_ifs at hg with hx
      · rcases ih _ _ _ hg hc with h | ⟨acc, hacc, hmem⟩
        · exact Or.inl (List.mem_cons_of_mem _ h)
        · rw [Option.some.injEq] at hacc
          subst hacc
          simp at hmem
      · rcases ih _ _ _ hg hc with h | ⟨acc, hacc, _⟩
        · exact Or.inl (List.mem_cons_of_mem _ h)
        · exact absurd hacc (by simp)
    | some acc =>
      unfold parenGroupsAux at hg
      split_ifs at hg with hx hlen
      · rcases List.mem_cons.mp hg with hg | hg
        · subst hg
          exact Or.inr ⟨acc, rfl, List.mem_reverse.mp hc⟩
        · rcases ih _ _ _ hg hc with h | ⟨acc', hacc', _⟩
          · exact Or.inl (List.mem_cons_of_mem _ h)
          · exact absurd hacc' (by simp)
      · rcases ih _ _ _ hg hc with h | ⟨acc', hacc', _⟩
        · exact Or.inl (List.mem_cons_of_mem _ h)
        · exact absurd hacc' (by simp)
      · rcases ih _ _ _ hg hc with h | ⟨acc', hacc', hmem⟩
        · exact Or.inl (List.mem_cons_of_mem _ h)
        · rw [Option.some.injEq] at hacc'
          subst hacc'
          rcases List.mem_cons.mp hmem with h | h
          · subst h
            exact Or.inl (List.mem_cons_self _ _)
          · exact Or.inr ⟨acc, rfl, h⟩

/-- Characters of a parenthesized group of a stem are characters of the
stem. -/
theorem parenGroups_mem (s : String) (grp : List Char) (c : Char)
    (hg : grp ∈ parenGroups s) (hc : c ∈ grp) : c ∈ s.data := by
  rcases parenGroupsAux_mem s.data none grp c hg hc with h | ⟨_, h, _⟩
  · exact h
  · exact absurd h (by simp)

/-- If a nonempty needle occurs as a substring, its head occurs as a
character. -/
theorem containsSubstr_head_mem (n : Char) (ns : List Char) :
    ∀ hay, containsSubstr (n :: ns) hay = true → n ∈ hay := by
  intro hay
  induction hay with
  | nil =>
    intro h
    simp [containsSubstr, startsWithList] at h
  | cons x xs ih =>
    intro h
    unfold containsSubstr at h
    rw [Bool.or_eq_true] at h
    rcases h with h | h
    · unfold startsWithList at h
      rw [Bool.and_eq_true] at h
      have hx : n = x := by simpa using h.1
      subst hx
      exact List.mem_cons_self _ _
    · exact List.mem_cons_of_mem _ (ih h)

/-- Deduplication only drops elements. -/
theorem dedupBacks_sub :
    ∀ (l : List Entry) (seen : List (String × String)) (e : Entry),
      e ∈ dedupBacks seen l → e ∈ l := by
  intro l
  induction l with
  | nil => intro seen e he; simp [dedupBacks] at he
  | cons p ps ih =>
    intro seen e he
    unfold dedupBacks at he
    split_ifs at he with h
    · exact List.mem_cons_of_mem _ (ih _ _ he)
    · rcases List.mem_cons.mp he with he | he
      · exact he ▸ List.mem_cons_self _ _
      · exact List.mem_cons_of_mem _ (ih _ _ he)

/-! ### C10: the heuristic strategies cannot return empty-key files -/

/-- Strategy 3 never returns a file whose stem normalizes to the empty
key: the nonempty base token set cannot be contained in the token set of
a parenthesized group of an all-non-alphanumeric stem. -/
theorem backsS3_no_empty_key (base : String) (cat : List Entry)
    (e : Entry) (he : e ∈ backsS3 base cat) :
    normalizeKey e.stem ≠ "" := by
  intro hk
  simp only [backsS3] at he
  split_ifs at he with hemp
  · simp at he
  · rw [List.mem_filter] at he
    obtain ⟨-, hp⟩ := he
    rw [List.any_eq_true] at hp
    obtain ⟨grp, hgrp, hall⟩ := hp
    rw [List.all_eq_true] at hall
    have hne : tokenize base ≠ [] := by
      intro hnil
      rw [hnil] at hemp
      exact hemp rfl
    obtain ⟨t, ht⟩ := List.exists_mem_of_ne_nil _ hne
    have hcont := hall t ht
    have htok : tokenize (String.mk grp) = [] := by
      apply tokenize_nil
      intro c hc
      exact (normalizeKey_empty_iff e.stem).mp hk c
        (parenGroups_mem e.stem grp c hgrp hc)
    rw [htok] at hcont
    simp at hcont

/-- Strategy 4 never returns a file whose stem normalizes to the empty
key: the stem must contain the letters of `"back"`. -/
theorem backsS4_no_empty_key (base : String) (cat : List Entry)
    (e : Entry) (he : e ∈ backsS4 base cat) :
    normalizeKey e.stem ≠ "" := by
  intro hk
  unfold backsS4 at he
  rw [List.mem_filter] at he
  obtain ⟨-, hp⟩ := he
  rw [Bool.and_eq_true] at hp
  have hb : 'b' ∈ (lowerStr e.stem).data :=
    containsSubstr_head_mem 'b' ['a', 'c', 'k'] _ hp.1
  have hb2 : 'b' ∈ e.stem.data.map lowerChar := hb
  rw [List.mem_map] at hb2
  obtain ⟨c0, hc0, hbc⟩ := hb2
  have hfail := (normalizeKey_empty_iff e.stem).mp hk c0 hc0
  rw [hbc] at hfail
  exact absurd hfail (by decide)

/-- C10 (counterexample): contrary to the claim, the flat-catalog
back-art heuristics can NEVER return a file whose stem normalizes to the
empty key — for no base name and no catalog does strategy 3 or
strategy 4 produce such an entry. -/
theorem c10_heuristics_cannot_return_empty_key :
    ¬ ∃ (base : String) (cat : List Entry) (e : Entry),
        normalizeKey e.stem = "" ∧
        (e ∈ backsS3 base cat ∨ e ∈ backsS4 base cat) := by
  rintro ⟨base, cat, e, hk, he | he⟩
  · exact backsS3_no_empty_key base cat e he hk
  · exact backsS4_no_empty_key base cat e he hk

/-- The sorted index inherits the scan invariant: nonempty keys, and
bucket entries normalizing to their key. -/
theorem indexLibrary_good (files : List Entry) (exts : List String) :
    ∀ p ∈ (indexLibrary files exts).1,
      p.1 ≠ "" ∧ ∀ e ∈ p.2, normalizeKey e.stem = p.1 := by
  intro p hp
  unfold indexLibrary at hp
  rw [List.mem_map] at hp
  obtain ⟨q, hq, hfq⟩ := hp
  have hg := rawIndex_good files exts q hq
  subst hfq
  refine ⟨hg.1, ?_⟩
  intro e he
  dsimp only at he ⊢
  have hperm := List.perm_insertionSort (entryLe exts) q.2
  exact hg.2.2 e (hperm.mem_iff.mp he)

/-- Membership in the concatenation of the buckets of a filtered index
comes from a bucket of the index. -/
theorem flatMapFilter_mem (f : String × List Entry → Bool) (idx : Index)
    (e : Entry)
    (he : e ∈ (List.filter f idx).flatMap (fun p => p.2)) :
    ∃ p, p ∈ idx ∧ e ∈ p.2 := by
  rw [List.mem_flatMap] at he
  obtain ⟨q, hq, hqe⟩ := he
  rw [List.mem_filter] at hq
  exact ⟨q, hq.1, hqe⟩

/-- Every candidate returned by `best_match` lives in some bucket of the
index. -/
theorem bestMatch_candidates_mem (name : String) (idx : Index)
    (e : Entry) (he : e ∈ (bestMatch name idx).candidates) :
    ∃ p, p ∈ idx ∧ e ∈ p.2 := by
  revert he
  unfold bestMatch
  cases hidx : lookupIdx idx (normalizeKey name) with
  | some bucket =>
    simp only [hidx]
    intro he
    obtain ⟨p, hp, _, hpb⟩ := lookupIdx_eq_some _ _ _ hidx
    exact ⟨p, hp, hpb.symm ▸ he⟩
  | none =>
    simp only [hidx]
    cases hp : extractPitch name with
    | some pw =>
      simp only [hp, Option.isSome_some, if_true]
      intro he
      split_ifs at he with h1 h2
      · simp at he
        obtain ⟨⟨a, b, ⟨hab, -⟩, heb⟩, -⟩ := he
        exact ⟨(a, b), hab, heb⟩
      · simp at he
        obtain ⟨a, b, ⟨hab, -⟩, heb⟩ := he
        exact ⟨(a, b), hab, heb⟩
      · simp at he
    | none =>
      simp only [hp, Option.isSome_none, Bool.false_eq_true, if_false]
      intro he
      split_ifs at he with h1 h2
      · simp at he
        obtain ⟨a, b, ⟨hab, -⟩, heb⟩ := he
        exact ⟨(a, b), hab, heb⟩
      · simp at he
        obtain ⟨a, b, ⟨hab, -⟩, heb⟩ := he
        exact ⟨(a, b), hab, heb⟩
      · simp at he

/-- Every entry of a strategy-1 result lives in some bucket of the
index. -/
theorem backsS1_mem (front srcStem : String) (idx : Index) (e : Entry)
    (he : e ∈ backsS1 front srcStem idx) : ∃ p, p ∈ idx ∧ e ∈ p.2 := by
  unfold backsS1 at he
  rw [List.mem_flatMap] at he
  obtain ⟨n, -, hn⟩ := he
  cases hl : lookupIdx idx (normalizeKey n) with
  | none =>
    rw [hl] at hn
    simp at hn
  | some b =>
    rw [hl] at hn
    obtain ⟨p, hp, -, hpb⟩ := lookupIdx_eq_some _ _ _ hl
    exact ⟨p, hp, hpb.symm ▸ hn⟩

/-- Every entry of a strategy-2 result lives in some bucket of the
index. -/
theorem backsS2_mem (front base : String) (idx : Index) (bm : BackMap)
    (e : Entry) (he : e ∈ backsS2 front base idx bm) :
    ∃ p, p ∈ idx ∧ e ∈ p.2 := by
  unfold backsS2 at he
  cases h1 : backsS2Try idx bm front with
  | some b =>
    rw [h1] at he
    unfold backsS2Try at h1
    rw [Option.bind_eq_some] at h1
    obtain ⟨tgt, -, hl⟩ := h1
    obtain ⟨p, hp, -, hpb⟩ := lookupIdx_eq_some _ _ _ hl
    exact ⟨p, hp, hpb.symm ▸ he⟩
  | none =>
    rw [h1] at he
    cases h2 : backsS2Try idx bm base with
    | some b =>
      rw [h2] at he
      unfold backsS2Try at h2
      rw [Option.bind_eq_some] at h2
      obtain ⟨tgt, -, hl⟩ := h2
      obtain ⟨p, hp, -, hpb⟩ := lookupIdx_eq_some _ _ _ hl
      exact ⟨p, hp, hpb.symm ▸ he⟩
    | none =>
      rw [h2] at he
      simp at he

/-- Against an `index_library`-built index and catalog, back-art
resolution never returns an entry with an empty normalized key. -/
theorem findBackImages_no_empty_key (files : List Entry)
    (exts : List String) (front : String) (src : Entry) (bm : BackMap)
    (e : Entry)
    (he : e ∈ findBackImages front src (indexLibrary files exts).1
      (indexLibrary files exts).2 bm) :
    normalizeKey e.stem ≠ "" := by
  have hidxgood : ∀ p, p ∈ (indexLibrary files exts).1 → e ∈ p.2 →
      normalizeKey e.stem ≠ "" := by
    intro p hp hep
    have hg := indexLibrary_good files exts p hp
    rw [hg.2 e hep]
    exact hg.1
  simp only [findBackImages] at he
  have he' := dedupBacks_sub _ _ _ he
  split_ifs at he' with h1 h2 h3
  · obtain ⟨p, hp, hep⟩ := backsS1_mem _ _ _ _ he'
    exact hidxgood p hp hep
  · obtain ⟨p, hp, hep⟩ := backsS2_mem _ _ _ _ _ he'
    exact hidxgood p hp hep
  · exact backsS3_no_empty_key _ _ _ he'
  · exact backsS4_no_empty_key _ _ _ he'

/-- C10 (amended): every scanned file enters the flat catalog; a file
whose stem normalizes to the empty key is excluded from the index, so
neither `best_match` (exact or prefix-based) nor — unlike what the claim
states — the flat-catalog back-art heuristics can ever return such a
file. -/
theorem c10_empty_key_excluded_everywhere (files : List Entry)
    (exts : List String) :
    (∀ e ∈ files, ∀ ext ∈ exts, endsWithStr e.fname ext = true →
      e ∈ (indexLibrary files exts).2) ∧
    (∀ k b, lookupIdx (indexLibrary files exts).1 k = some b →
      k ≠ "" ∧ ∀ e ∈ b, normalizeKey e.stem ≠ "") ∧
    (∀ name e, e ∈ (bestMatch name (indexLibrary files exts).1).candidates →
      normalizeKey e.stem ≠ "") ∧
    (∀ front src bm e,
      e ∈ findBackImages front src (indexLibrary files exts).1
        (indexLibrary files exts).2 bm →
      normalizeKey e.stem ≠ "") := by
  refine ⟨?_, ?_, ?_, ?_⟩
  · intro e he ext hext hmatch
    show e ∈ scanFiles files exts
    unfold scanFiles
    rw [List.mem_flatMap]
    exact ⟨ext, hext, List.mem_filter.mpr ⟨he, hmatch⟩⟩
  · intro k b h
    have hm := indexLibrary_lookup files exts k b h
    refine ⟨hm.1, ?_⟩
    intro e he
    rw [hm.2.2.2 e he]
    exact hm.1
  · intro name e he
    obtain ⟨p, hp, hep⟩ := bestMatch_candidates_mem name _ e he
    have hg := indexLibrary_good files exts p hp
    rw [hg.2 e hep]
    exact hg.1
  · intro front src bm e he
    exact findBackImages_no_empty_key files exts front src bm e he

/-- C10 witness: instantiated on `c1Files`: the scan inclusion at
`Card.png`, and the no-empty-key facts at the bucket of `"card"`, the
request `"Card"`, and a back resolution for `"Card"`. -/
theorem c10_empty_key_excluded_everywhere_witness :
    ⟨"lib/", "Card", ".png"⟩ ∈ c1Catalog.2 ∧
    (∀ e ∈ [(⟨"lib/", "Card", ".png"⟩ : Entry)],
      normalizeKey e.stem ≠ "") ∧
    (∀ e ∈ (bestMatch "Card" c1Catalog.1).candidates,
      normalizeKey e.stem ≠ "") := by
  have h := c10_empty_key_excluded_everywhere c1Files [".png"]
  refine ⟨?_, ?_, ?_⟩
  · exact h.1 ⟨"lib/", "Card", ".png"⟩ (by simp [c1Files]) ".png"
      (by simp) (by rfl)
  · exact (h.2.1 "card" [⟨"lib/", "Card", ".png"⟩] (by rfl)).2
  · intro e he
    exact h.2.2.1 "Card" e he

end CardCopy
